import Mathlib

/-!
# Concord — verification of the relay and peer-node core

Shallow embedding of the Concord repository's relay server (invite-code
registry, store-and-forward message queue, HTTP `/send` handler) and peer
node (outbound router, relay client, identity bootstrap, known-peers
persistence), with theorems settling the specification claims.

Sources embedded here:
* the relay server (`registerPeer`, `lookupCode`, `cleanupExpired`,
  `enqueueMessage`, `dequeueMessages`, the `/send` route handler);
* the peer sidecar (`sendToPeer`, `sendViaRelay`, `fetchJson`,
  `registerInviteCode`, the `/poll` message unwrapping,
  `loadOrCreateIdentity`, `loadOrCreatePort`);
* the client-side known-peers service (`addKnownPeer`).

JavaScript builtins (`JSON.parse`, `Array.prototype.sort`,
`String.prototype.trim/toUpperCase/toLowerCase`) are modelled explicitly:
parse results are passed as `Option Js` arguments (the argument is the
value `JSON.parse` would produce, `none` when it throws), and the string
and sorting builtins are given executable ASCII-faithful models below.
-/

namespace Concord

/-- JavaScript values as produced by `JSON.parse`, plus `undefined` (the
result of reading an absent property). Numbers are modelled as integers —
no claim involves fractional numbers. -/
inductive Js where
  | undefined : Js
  | null : Js
  | bool : Bool → Js
  | num : Int → Js
  | str : String → Js
  | arr : List Js → Js
  | obj : List (String × Js) → Js

mutual
/-- Structural equality on `Js` values (JS `===` on primitives; object keys
in this development are only ever strings, where this coincides with the
`SameValueZero` equality JS `Map`s use). -/
def Js.beq : Js → Js → Bool
  | .undefined, .undefined => true
  | .null, .null => true
  | .bool a, .bool b => a == b
  | .num a, .num b => a == b
  | .str a, .str b => a == b
  | .arr a, .arr b => Js.beqList a b
  | .obj a, .obj b => Js.beqFields a b
  | _, _ => false

def Js.beqList : List Js → List Js → Bool
  | [], [] => true
  | x :: xs, y :: ys => Js.beq x y && Js.beqList xs ys
  | _, _ => false

def Js.beqFields : List (String × Js) → List (String × Js) → Bool
  | [], [] => true
  | (k1, v1) :: xs, (k2, v2) :: ys => k1 == k2 && Js.beq v1 v2 && Js.beqFields xs ys
  | _, _ => false
end

instance : BEq Js := ⟨Js.beq⟩

/-- JS truthiness (`Boolean(v)`): `undefined`, `null`, `false`, `0` and the
empty string are falsy; arrays and objects are always truthy. -/
def Js.truthy : Js → Bool
  | .undefined => false
  | .null => false
  | .bool b => b
  | .num n => n != 0
  | .str s => s != ""
  | .arr _ => true
  | .obj _ => true

/-- JS property access `v[k]`: on an object, the field's value (or
`undefined` when absent); on `null`/`undefined` it throws a `TypeError`,
modelled as `none`; on any other value it yields `undefined`. -/
def Js.get? : Js → String → Option Js
  | .undefined, _ => none
  | .null, _ => none
  | .obj fields, k =>
      some (match fields.find? (fun f => f.1 == k) with
            | some f => f.2
            | none => .undefined)
  | _, _ => some .undefined

/-- Is this value exactly `undefined` (JS `=== undefined`)? -/
def Js.isUndefined : Js → Bool
  | .undefined => true
  | _ => false

/-- Is this value a string (JS values that support `.slice`)? -/
def Js.isStr : Js → Bool
  | .str _ => true
  | _ => false

/-- JS `a || b`: `a` when truthy, else `b`. -/
def jsOr (a b : Js) : Js := if a.truthy then a else b

/-- The characters removed by JS `String.prototype.trim` that can occur in
the inputs at hand (ASCII whitespace). -/
def isJsWs (c : Char) : Bool := c == ' ' || c == '\t' || c == '\n' || c == '\r'

/-- Executable model of JS `String.prototype.trim`. -/
def jsTrim (s : String) : String :=
  String.mk (((s.data.dropWhile isJsWs).reverse.dropWhile isJsWs).reverse)

/-- Executable model of JS `String.prototype.toUpperCase` (ASCII-faithful;
every string it is applied to in this development is ASCII). -/
def jsToUpper (s : String) : String := String.mk (s.data.map Char.toUpper)

/-- Executable model of JS `String.prototype.toLowerCase` (ASCII-faithful). -/
def jsToLower (s : String) : String := String.mk (s.data.map Char.toLower)

/-! ## Association lists: executable model of JS `Map`

A JS `Map` preserves insertion order: `set` on an existing key updates in
place, `set` on a new key appends, `delete` removes. We model a map as a
`List (α × β)` in insertion order. -/

/-- Model of `Map.get`: the value at the first matching key. -/
def lookupA {α β : Type} [BEq α] (l : List (α × β)) (k : α) : Option β :=
  match l.find? (fun kv => kv.1 == k) with
  | some kv => some kv.2
  | none => none

/-- Model of `Map.set`: replace in place when the key is present, append otherwise. -/
def setA {α β : Type} [BEq α] : List (α × β) → α → β → List (α × β)
  | [], k, v => [(k, v)]
  | kv :: rest, k, v =>
      if kv.1 == k then (k, v) :: rest else kv :: setA rest k v

/-- Model of `Map.delete`: drop the entry with the given key. -/
def eraseA {α β : Type} [BEq α] (l : List (α × β)) (k : α) : List (α × β) :=
  l.filter (fun kv => !(kv.1 == k))

/-- Model of `Map.has`. -/
def hasA {α β : Type} [BEq α] (l : List (α × β)) (k : α) : Bool :=
  l.any (fun kv => kv.1 == k)

/-! ## Relay message queue

From the relay server: `messageQueues` maps a recipient peer-id to its
ordered queue of `{ from, channelId, data, ts }` messages. -/

/-- Constant `MSG_TTL_MS = 5 * 60 * 1000` — messages expire after 5 minutes. -/
def MSG_TTL_MS : Nat := 5 * 60 * 1000

/-- Constant `MSG_MAX_PER_PEER = 200`. -/
def MSG_MAX_PER_PEER : Nat := 200

/-- A queued relay message `{ from, channelId, data, ts }`. The payload
type `β` is `String` for the queue-level claims and `Js` for the raw
values the `/send` route hands over. -/
structure QMsg (β : Type) where
  from_ : β
  channelId : β
  data : β
  ts : Nat
deriving DecidableEq

/-- The queue of a recipient (`messageQueues.get(p)`, empty when absent). -/
def getQueue {α β : Type} [BEq α] (qs : List (α × List (QMsg β))) (p : α) :
    List (QMsg β) :=
  (lookupA qs p).getD []

/-- The relay's trim loop `while (queue.length > MSG_MAX_PER_PEER)
queue.shift();` — drops from the front while too long. The loop runs at
most `length` times, which we supply as structural fuel. -/
def trimFrontGo {β : Type} : Nat → List (QMsg β) → List (QMsg β)
  | 0, q => q
  | fuel + 1, q =>
      if MSG_MAX_PER_PEER < q.length then trimFrontGo fuel q.tail else q

/-- See `trimFrontGo`. -/
def trimFront {β : Type} (q : List (QMsg β)) : List (QMsg β) :=
  trimFrontGo q.length q

/-- Function `enqueueMessage(toPeerId, fromPeerId, channelId, data)` from the relay:
create the recipient's queue when missing, push `{from, channelId, data,
ts: Date.now()}`, then drop from the front while the length exceeds
`MSG_MAX_PER_PEER`. -/
def enqueueMessage {α β : Type} [BEq α] (qs : List (α × List (QMsg β)))
    (toPeerId : α) (fromPeerId channelId data : β) (now : Nat) :
    List (α × List (QMsg β)) :=
  let queue := getQueue qs toPeerId
  setA qs toPeerId (trimFront (queue ++ [⟨fromPeerId, channelId, data, now⟩]))

/-- Function `dequeueMessages(peerId, since = 0)` from the relay: when the queue is
missing or empty return `[]`; otherwise return the messages with
`ts > since` and `now - ts < MSG_TTL_MS`, and reset the recipient's queue
to `[]`. -/
def dequeueMessages {α β : Type} [BEq α] (qs : List (α × List (QMsg β)))
    (peerId : α) (since now : Nat) :
    List (QMsg β) × List (α × List (QMsg β)) :=
  match lookupA qs peerId with
  | none => ([], qs)
  | some queue =>
      if queue.length = 0 then ([], qs)
      else
        (queue.filter (fun m => decide (since < m.ts) && decide (now - m.ts < MSG_TTL_MS)),
         setA qs peerId [])

/-! ## Association-list lemmas -/

theorem lookupA_nil {α β : Type} [BEq α] (k : α) :
    lookupA ([] : List (α × β)) k = none := rfl

theorem lookupA_cons {α β : Type} [BEq α] (kv : α × β) (l : List (α × β)) (k : α) :
    lookupA (kv :: l) k = if kv.1 == k then some kv.2 else lookupA l k := by
  simp only [lookupA, List.find?]
  rcases h : kv.1 == k with _ | _ <;> simp [h]

theorem lookupA_setA_self {α β : Type} [BEq α] [LawfulBEq α]
    (l : List (α × β)) (k : α) (v : β) :
    lookupA (setA l k v) k = some v := by
  induction l with
  | nil => simp [setA, lookupA_cons]
  | cons kv rest ih =>
      rcases h : kv.1 == k with _ | _
      · simp [setA, h, lookupA_cons, ih]
      · simp [setA, h, lookupA_cons]

theorem lookupA_setA_ne {α β : Type} [BEq α] [LawfulBEq α]
    (l : List (α × β)) (k k2 : α) (v : β) (hne : k2 ≠ k) :
    lookupA (setA l k v) k2 = lookupA l k2 := by
  induction l with
  | nil =>
      have : (k == k2) = false := by
        simp only [beq_eq_false_iff_ne]; exact fun h => hne h.symm
      simp [setA, lookupA_cons, lookupA_nil, this]
  | cons kv rest ih =>
      rcases h : kv.1 == k with _ | _
      · simp [setA, h, lookupA_cons, ih]
      · have hk : kv.1 = k := by simpa using h
        have : (k == k2) = false := by
          simp only [beq_eq_false_iff_ne]; exact fun h2 => hne h2.symm
        simp [setA, h, lookupA_cons, this, hk]

/-! ## Message-queue lemmas -/

theorem trimFrontGo_eq_drop {β : Type} (fuel : Nat) (q : List (QMsg β))
    (hfuel : q.length - MSG_MAX_PER_PEER ≤ fuel) :
    trimFrontGo fuel q = q.drop (q.length - MSG_MAX_PER_PEER) := by
  induction fuel generalizing q with
  | zero =>
      have h0 : q.length - MSG_MAX_PER_PEER = 0 := Nat.le_zero.mp hfuel
      simp [trimFrontGo, h0]
  | succ n ih =>
      by_cases h : MSG_MAX_PER_PEER < q.length
      · have hq : q ≠ [] := by
          intro he; subst he; simp at h
        rcases q with _ | ⟨x, rest⟩
        · simp at h
        · have hlen : (x :: rest).length = rest.length + 1 := by simp
          have : rest.length - MSG_MAX_PER_PEER ≤ n := by
            simp at hfuel ⊢; omega
          simp only [trimFrontGo, if_pos h, List.tail_cons]
          rw [ih rest this]
          have h2 : (x :: rest).length - MSG_MAX_PER_PEER
              = (rest.length - MSG_MAX_PER_PEER) + 1 := by
            simp at h ⊢; omega
          rw [h2]
          simp
      · simp only [trimFrontGo, if_neg h]
        have : q.length - MSG_MAX_PER_PEER = 0 := by omega
        simp [this]

theorem trimFront_eq_drop {β : Type} (q : List (QMsg β)) :
    trimFront q = q.drop (q.length - MSG_MAX_PER_PEER) :=
  trimFrontGo_eq_drop q.length q (Nat.sub_le _ _)

theorem trimFront_length_le {β : Type} (q : List (QMsg β)) :
    (trimFront q).length ≤ MSG_MAX_PER_PEER := by
  rw [trimFront_eq_drop, List.length_drop]
  have : 0 < MSG_MAX_PER_PEER := by decide
  omega

/-- C2: `drain(P, since)` returns exactly the queued messages of `P` with
`ts > since` and `now - ts < MSG_TTL`, in queue order, and clears `P`'s
queue; `drain(P, 0); drain(P, 0)` returns nothing the second time; and no
message at least `MSG_TTL` old ever appears in a drain result. -/
theorem dequeueMessages_drain_spec :
    ∀ (qs : List (String × List (QMsg String))) (P : String) (since now now2 : Nat),
      (dequeueMessages qs P since now).1
          = (getQueue qs P).filter
              (fun m => decide (since < m.ts) && decide (now - m.ts < MSG_TTL_MS))
      ∧ getQueue (dequeueMessages qs P since now).2 P = []
      ∧ (dequeueMessages (dequeueMessages qs P 0 now).2 P 0 now2).1 = []
      ∧ ((dequeueMessages qs P since now).1.all
          fun m => decide (now < m.ts + MSG_TTL_MS)) = true := by
  intro qs P since now now2
  have hdrain : ∀ s n n2,
      (dequeueMessages qs P s n).1
        = (getQueue qs P).filter
            (fun m => decide (s < m.ts) && decide (n - m.ts < MSG_TTL_MS))
      ∧ getQueue (dequeueMessages qs P s n).2 P = []
      ∧ (dequeueMessages (dequeueMessages qs P s n).2 P s n2).1 = [] := by
    intro s n n2
    rcases h : lookupA qs P with _ | q
    · simp [dequeueMessages, h, getQueue]
    · by_cases hq : q.length = 0
      · have : q = [] := List.length_eq_zero.mp hq
        subst this
        simp [dequeueMessages, h, getQueue]
      · have hset : lookupA (setA qs P ([] : List (QMsg String))) P = some [] :=
          lookupA_setA_self qs P []
        refine ⟨?_, ?_, ?_⟩
        · simp [dequeueMessages, h, hq, getQueue]
        · simp [dequeueMessages, h, hq, getQueue, hset]
        · simp [dequeueMessages, h, hq, hset]
  refine ⟨(hdrain since now now2).1, (hdrain since now now2).2.1,
    (hdrain 0 now now2).2.2, ?_⟩
  rw [List.all_eq_true]
  intro m hm
  rw [(hdrain since now now2).1] at hm
  have := List.of_mem_filter hm
  simp only [Bool.and_eq_true, decide_eq_true_eq] at this
  simp only [decide_eq_true_eq]
  omega

set_option maxRecDepth 10000 in
/-- C3: after any enqueue the recipient's queue holds at most
`MSG_MAX_PER_PEER = 200` messages, overflow dropping from the front
(oldest first); enqueueing 205 messages and draining yields exactly
messages 6..205 in enqueue order. -/
theorem enqueueMessage_bounded_drop_oldest :
    ∀ (qs : List (String × List (QMsg String))) (toP fr ch d : String) (now : Nat),
      (getQueue (enqueueMessage qs toP fr ch d now) toP).length ≤ MSG_MAX_PER_PEER
      ∧ getQueue (enqueueMessage qs toP fr ch d now) toP
          = ((getQueue qs toP) ++ [(⟨fr, ch, d, now⟩ : QMsg String)]).drop
              ((getQueue qs toP).length + 1 - MSG_MAX_PER_PEER)
      ∧ (dequeueMessages
          ((List.range 205).foldl
            (fun acc i => enqueueMessage acc "P" "A" "general" "" (i + 1)) [])
          "P" 0 210).1
          = (List.range' 6 200).map (fun i => (⟨"A", "general", "", i⟩ : QMsg String)) := by
  intro qs toP fr ch d now
  have hget : getQueue (enqueueMessage qs toP fr ch d now) toP
      = trimFront ((getQueue qs toP) ++ [⟨fr, ch, d, now⟩]) := by
    simp [enqueueMessage, getQueue, lookupA_setA_self]
  refine ⟨?_, ?_, ?_⟩
  · rw [hget]; exact trimFront_length_le _
  · rw [hget, trimFront_eq_drop]
    simp [List.length_append]
  · decide

/-! ## Invite-code registry (relay)

State: `codeToEntry : Map code → { peerId, lastSeen }` and
`peerToCode : Map peerId → code`. -/

/-- Constant `CODE_TTL_MS = 24 * 60 * 60 * 1000` — codes expire after 24 hours. -/
def CODE_TTL_MS : Nat := 24 * 60 * 60 * 1000

/-- A registry entry `{ peerId, lastSeen }`. -/
structure CodeEntry where
  peerId : String
  lastSeen : Nat
deriving DecidableEq

/-- The relay registry state. -/
structure RegState where
  codeToEntry : List (String × CodeEntry)
  peerToCode : List (String × String)
deriving DecidableEq

/-- Both maps start empty. -/
def regInit : RegState := ⟨[], []⟩

/-- The unambiguous code alphabet (no `O`/`0`/`I`/`1`). -/
def CODE_CHARS : List Char := "ABCDEFGHJKLMNPQRSTUVWXYZ23456789".data

/-- One generated character: `chars[Math.floor(Math.random() *
chars.length)]`. The random draw is an arbitrary natural reduced mod the
alphabet size (the JS index is always in range). -/
def codeChar (r : Nat) : Char := CODE_CHARS.getD (r % CODE_CHARS.length) 'A'

/-- Function `generateCode()` from the relay: 8 random characters, a dash inserted
when `i === 4`, giving `XXXX-XXXX`. `pick i` is iteration `i`'s random
draw. -/
def generateCode (pick : Nat → Nat) : String :=
  String.mk ((List.range 8).foldl (fun code i =>
    (if i = 4 then code ++ ['-'] else code) ++ [codeChar (pick i)]) [])

/-- The `do { code = generateCode(); } while (codeToEntry.has(code))` loop
of `registerPeer`, fed by a stream of random draws (one `pick` function
per loop iteration). `none` models the loop not terminating within the
supplied stream — with a genuine random source a fresh code is always
found eventually. The chosen code is inserted into both maps. -/
def registerFresh (s : RegState) (peerId : String) (now : Nat)
    (picks : List (Nat → Nat)) : Option (String × RegState) :=
  match picks.find? (fun pick => !(hasA s.codeToEntry (generateCode pick))) with
  | none => none
  | some pick =>
      let code := generateCode pick
      some (code,
        ⟨setA s.codeToEntry code ⟨peerId, now⟩, setA s.peerToCode peerId code⟩)

/-- Function `registerPeer(peerId)` from the relay: when the peer already has a
code whose entry is still present, refresh `lastSeen` and return the same
code; otherwise generate a fresh unique code and insert it in both maps. -/
def registerPeer (s : RegState) (peerId : String) (now : Nat)
    (picks : List (Nat → Nat)) : Option (String × RegState) :=
  match lookupA s.peerToCode peerId with
  | some code =>
      match lookupA s.codeToEntry code with
      | some entry =>
          some (code,
            { s with codeToEntry := setA s.codeToEntry code ⟨entry.peerId, now⟩ })
      | none => registerFresh s peerId now picks
  | none => registerFresh s peerId now picks

/-- Function `lookupCode(code)` from the relay: look up `code.toUpperCase()`; on a
hit refresh the entry's `lastSeen` (the JS code mutates the entry object
held by the map) and return it. -/
def lookupCode (s : RegState) (code : String) (now : Nat) :
    Option CodeEntry × RegState :=
  match lookupA s.codeToEntry (jsToUpper code) with
  | none => (none, s)
  | some entry =>
      (some ⟨entry.peerId, now⟩,
       { s with codeToEntry := setA s.codeToEntry (jsToUpper code) ⟨entry.peerId, now⟩ })

/-- One iteration of the `cleanupExpired` sweep: when the visited entry is
expired, delete its code from `codeToEntry` and its peer from
`peerToCode`. -/
def cleanupStep (now : Nat) (acc : RegState) (ce : String × CodeEntry) : RegState :=
  if CODE_TTL_MS < now - ce.2.lastSeen then
    ⟨eraseA acc.codeToEntry ce.1, eraseA acc.peerToCode ce.2.peerId⟩
  else acc

/-- Function `cleanupExpired()` from the relay: iterate over `codeToEntry` (JS `Map`
iteration visits every entry even when the current one is deleted) and
delete every expired entry from both maps. -/
def cleanupExpired (s : RegState) (now : Nat) : RegState :=
  s.codeToEntry.foldl (cleanupStep now) s

/-- The codes of the entries an expiry sweep at `now` removes. -/
def expiredCodes (now : Nat) (l : List (String × CodeEntry)) : List String :=
  (l.filter (fun ce => decide (CODE_TTL_MS < now - ce.2.lastSeen))).map Prod.fst

/-- The peer-ids of the entries an expiry sweep at `now` removes. -/
def expiredPeers (now : Nat) (l : List (String × CodeEntry)) : List String :=
  (l.filter (fun ce => decide (CODE_TTL_MS < now - ce.2.lastSeen))).map
    (fun ce => ce.2.peerId)

/-- The keys of an association list are distinct (always true of a JS
`Map`). -/
def KeysNodup {β : Type} (l : List (String × β)) : Prop :=
  (l.map Prod.fst).Nodup

/-- The registry bijection: both maps have distinct keys, and `peerToCode`
maps `p` to `c` exactly when `codeToEntry` maps `c` to an entry whose
`peerId` is `p`. -/
def RegInv (s : RegState) : Prop :=
  KeysNodup s.codeToEntry ∧ KeysNodup s.peerToCode ∧
  ∀ p c, lookupA s.peerToCode p = some c ↔
    ∃ e, lookupA s.codeToEntry c = some e ∧ e.peerId = p

/-- Every code stored in the registry is drawn from the generator's
alphabet (8 code characters and the dash). -/
def codesWellFormed (s : RegState) : Prop :=
  ∀ kv ∈ s.codeToEntry, ∀ ch ∈ kv.1.data, ch ∈ '-' :: CODE_CHARS

/-- The registry states reachable from the empty registry by the three
mutating operations. -/
inductive RegReachable : RegState → Prop where
  | init : RegReachable regInit
  | register (s : RegState) (p : String) (now : Nat) (picks : List (Nat → Nat))
      (c : String) (s2 : RegState) :
      RegReachable s → registerPeer s p now picks = some (c, s2) → RegReachable s2
  | lookup (s : RegState) (code : String) (now : Nat) :
      RegReachable s → RegReachable (lookupCode s code now).2
  | cleanup (s : RegState) (now : Nat) :
      RegReachable s → RegReachable (cleanupExpired s now)

/-! ## Further association-list lemmas (String keys) -/

theorem lookupA_mem {β : Type} (l : List (String × β)) (k : String) (v : β)
    (h : lookupA l k = some v) : (k, v) ∈ l := by
  induction l with
  | nil => simp [lookupA] at h
  | cons kv rest ih =>
      rw [lookupA_cons] at h
      rcases hk : kv.1 == k with _ | _
      · rw [hk] at h
        simp only [Bool.false_eq_true, if_false] at h
        exact List.mem_cons_of_mem _ (ih h)
      · rw [hk] at h
        have h1 : kv.1 = k := by simpa using hk
        have h2 : kv.2 = v := by simpa using h
        have h3 : kv = (k, v) := by
          rcases kv with ⟨a, b⟩
          exact congrArg₂ Prod.mk h1 h2
        exact h3 ▸ List.mem_cons_self _ _

theorem lookupA_eq_none_iff {β : Type} (l : List (String × β)) (k : String) :
    lookupA l k = none ↔ k ∉ l.map Prod.fst := by
  induction l with
  | nil => simp [lookupA]
  | cons kv rest ih =>
      rw [lookupA_cons]
      rcases hk : kv.1 == k with _ | _
      · have h1 : kv.1 ≠ k := by simpa using hk
        simp [ih, h1]
        intro h2
        exact fun he => h1 he.symm
      · have h1 : kv.1 = k := by simpa using hk
        simp [h1]

theorem mem_lookupA {β : Type} (l : List (String × β)) (k : String) (v : β)
    (hnd : KeysNodup l) (hmem : (k, v) ∈ l) : lookupA l k = some v := by
  induction l with
  | nil => simp at hmem
  | cons kv rest ih =>
      rcases List.mem_cons.mp hmem with heq | hmem2
      · subst heq
        simp [lookupA_cons]
      · have hk : kv.1 ≠ k := by
          intro he
          have hin : kv.1 ∈ rest.map Prod.fst := by
            rw [he]
            exact List.mem_map.mpr ⟨(k, v), hmem2, rfl⟩
          exact (List.nodup_cons.mp hnd).1 hin
        have hk2 : (kv.1 == k) = false := by simpa using hk
        rw [lookupA_cons, hk2]
        simp only [Bool.false_eq_true, if_false]
        exact ih (List.nodup_cons.mp hnd).2 hmem2

theorem hasA_iff_lookupA {β : Type} (l : List (String × β)) (k : String) :
    hasA l k = true ↔ ∃ v, lookupA l k = some v := by
  induction l with
  | nil => simp [hasA, lookupA]
  | cons kv rest ih =>
      rw [lookupA_cons]
      rcases hk : kv.1 == k with _ | _
      · simp [hasA, hk] at ih ⊢
        exact ih
      · simp [hasA, hk]

theorem mem_setA {β : Type} (l : List (String × β)) (k : String) (v : β)
    (kv2 : String × β) (h : kv2 ∈ setA l k v) : kv2 = (k, v) ∨ kv2 ∈ l := by
  induction l with
  | nil => simp [setA] at h; exact Or.inl h
  | cons kv rest ih =>
      rcases hk : kv.1 == k with _ | _
      · simp only [setA, hk, Bool.false_eq_true, if_false] at h
        rcases List.mem_cons.mp h with heq | h2
        · exact Or.inr (heq ▸ List.mem_cons_self _ _)
        · rcases ih h2 with h3 | h3
          · exact Or.inl h3
          · exact Or.inr (List.mem_cons_of_mem _ h3)
      · simp only [setA, hk, if_true] at h
        rcases List.mem_cons.mp h with heq | h2
        · exact Or.inl heq
        · exact Or.inr (List.mem_cons_of_mem _ h2)

theorem keys_setA {β : Type} (l : List (String × β)) (k : String) (v : β) :
    (setA l k v).map Prod.fst
      = if hasA l k then l.map Prod.fst else l.map Prod.fst ++ [k] := by
  induction l with
  | nil => simp [setA, hasA]
  | cons kv rest ih =>
      rcases hk : kv.1 == k with _ | _
      · have h1 : kv.1 ≠ k := by simpa using hk
        simp only [setA, hk, Bool.false_eq_true, if_false, hasA, List.any_cons]
        simp only [hasA] at ih
        rcases h2 : rest.any (fun kv => kv.1 == k) with _ | _
        · simp [h2, hk] at ih ⊢
          exact ih
        · simp [h2, hk] at ih ⊢
          exact ih
      · have h1 : kv.1 = k := by simpa using hk
        simp [setA, hk, hasA, h1]

theorem KeysNodup_setA {β : Type} (l : List (String × β)) (k : String) (v : β)
    (hnd : KeysNodup l) : KeysNodup (setA l k v) := by
  unfold KeysNodup at hnd ⊢
  rw [keys_setA]
  rcases h : hasA l k with _ | _
  · simp only [Bool.false_eq_true, if_false]
    have hk : k ∉ l.map Prod.fst := by
      intro hmem
      rcases List.mem_map.mp hmem with ⟨kv, hkv, hfst⟩
      have : hasA l k = true :=
        List.any_eq_true.mpr ⟨kv, hkv, by simp [hfst]⟩
      rw [h] at this
      exact Bool.false_ne_true this
    simp [List.nodup_append, hnd, hk]
  · simpa using hnd

theorem lookupA_filter_none {β : Type} (l : List (String × β))
    (q : String × β → Bool) (k : String) (h : k ∉ l.map Prod.fst) :
    lookupA (l.filter q) k = none := by
  rw [lookupA_eq_none_iff]
  intro hmem
  apply h
  rcases List.mem_map.mp hmem with ⟨kv, hkv, hfst⟩
  exact List.mem_map.mpr ⟨kv, List.mem_of_mem_filter hkv, hfst⟩

theorem lookupA_filter {β : Type} (l : List (String × β)) (q : String × β → Bool)
    (k : String) (hnd : KeysNodup l) :
    lookupA (l.filter q) k
      = match lookupA l k with
        | some v => if q (k, v) then some v else none
        | none => none := by
  induction l with
  | nil => simp [lookupA]
  | cons kv rest ih =>
      have hnd2 := List.nodup_cons.mp hnd
      rcases hk : kv.1 == k with _ | _
      · have h1 : kv.1 ≠ k := by simpa using hk
        rcases hq : q kv with _ | _
        · simp only [List.filter_cons, hq, Bool.false_eq_true, if_false]
          rw [ih hnd2.2, lookupA_cons, hk]
          simp
        · simp only [List.filter_cons, hq, if_true]
          rw [lookupA_cons, hk, lookupA_cons, hk]
          simp only [Bool.false_eq_true, if_false]
          exact ih hnd2.2
      · have h1 : kv.1 = k := by simpa using hk
        have hketa : kv = (k, kv.2) := by
          rcases kv with ⟨a, b⟩; simp at h1; simp [h1]
        have hnotin : k ∉ rest.map Prod.fst := h1 ▸ hnd2.1
        rcases hq : q kv with _ | _
        · simp only [List.filter_cons, hq, Bool.false_eq_true, if_false]
          rw [lookupA_filter_none rest q k hnotin, lookupA_cons, hk]
          simp [← hketa, hq]
        · simp only [List.filter_cons, hq, if_true]
          rw [lookupA_cons, hk, lookupA_cons, hk]
          simp [← hketa, hq]

/-! ## Expiry-sweep characterization -/

theorem foldl_cleanupStep (now : Nat) (l : List (String × CodeEntry)) :
    ∀ acc : RegState,
      (l.foldl (cleanupStep now) acc).codeToEntry
        = acc.codeToEntry.filter (fun kv => !((expiredCodes now l).contains kv.1))
      ∧ (l.foldl (cleanupStep now) acc).peerToCode
        = acc.peerToCode.filter (fun kv => !((expiredPeers now l).contains kv.1)) := by
  induction l with
  | nil =>
      intro acc
      simp [expiredCodes, expiredPeers]
  | cons ce rest ih =>
      intro acc
      by_cases hexp : CODE_TTL_MS < now - ce.2.lastSeen
      · have hstep : cleanupStep now acc ce
            = ⟨eraseA acc.codeToEntry ce.1, eraseA acc.peerToCode ce.2.peerId⟩ := by
          simp [cleanupStep, hexp]
        have hc : expiredCodes now (ce :: rest) = ce.1 :: expiredCodes now rest := by
          simp [expiredCodes, hexp]
        have hp : expiredPeers now (ce :: rest)
            = ce.2.peerId :: expiredPeers now rest := by
          simp [expiredPeers, hexp]
        rw [List.foldl_cons, hstep]
        obtain ⟨ih1, ih2⟩ :=
          ih ⟨eraseA acc.codeToEntry ce.1, eraseA acc.peerToCode ce.2.peerId⟩
        constructor
        · rw [ih1, hc]
          show (acc.codeToEntry.filter _).filter _ = _
          rw [List.filter_filter]
          apply List.filter_congr
          intro kv hkv
          cases h1 : kv.1 == ce.1 <;>
            cases h2 : (expiredCodes now rest).contains kv.1 <;>
              simp_all [eraseA, List.contains_cons]
        · rw [ih2, hp]
          show (acc.peerToCode.filter _).filter _ = _
          rw [List.filter_filter]
          apply List.filter_congr
          intro kv hkv
          cases h1 : kv.1 == ce.2.peerId <;>
            cases h2 : (expiredPeers now rest).contains kv.1 <;>
              simp_all [eraseA, List.contains_cons]
      · have hstep : cleanupStep now acc ce = acc := by
          simp [cleanupStep, hexp]
        have hc : expiredCodes now (ce :: rest) = expiredCodes now rest := by
          simp [expiredCodes, hexp]
        have hp : expiredPeers now (ce :: rest) = expiredPeers now rest := by
          simp [expiredPeers, hexp]
        rw [List.foldl_cons, hstep, hc, hp]
        exact ih acc

theorem mem_expiredCodes (now : Nat) (l : List (String × CodeEntry)) (c : String) :
    c ∈ expiredCodes now l
      ↔ ∃ e, (c, e) ∈ l ∧ CODE_TTL_MS < now - e.lastSeen := by
  unfold expiredCodes
  constructor
  · intro h
    rcases List.mem_map.mp h with ⟨ce, hce, hfst⟩
    rcases List.mem_filter.mp hce with ⟨hmem, hcond⟩
    refine ⟨ce.2, ?_, by simpa using hcond⟩
    rw [← hfst]
    exact hmem
  · rintro ⟨e, hmem, hcond⟩
    exact List.mem_map.mpr
      ⟨(c, e), List.mem_filter.mpr ⟨hmem, by simpa using hcond⟩, rfl⟩

theorem mem_expiredPeers (now : Nat) (l : List (String × CodeEntry)) (pid : String) :
    pid ∈ expiredPeers now l
      ↔ ∃ c e, (c, e) ∈ l ∧ e.peerId = pid ∧ CODE_TTL_MS < now - e.lastSeen := by
  unfold expiredPeers
  constructor
  · intro h
    rcases List.mem_map.mp h with ⟨ce, hce, hfst⟩
    rcases List.mem_filter.mp hce with ⟨hmem, hcond⟩
    exact ⟨ce.1, ce.2, hmem, hfst, by simpa using hcond⟩
  · rintro ⟨c, e, hmem, hpid, hcond⟩
    exact List.mem_map.mpr
      ⟨(c, e), List.mem_filter.mpr ⟨hmem, by simpa using hcond⟩, hpid⟩

/-! ## Registry invariant preservation -/

theorem RegInv_init : RegInv regInit := by
  refine ⟨by simp [KeysNodup, regInit], by simp [KeysNodup, regInit], ?_⟩
  intro p c
  simp [regInit, lookupA]

theorem RegInv_update_entry (s : RegState) (c0 : String) (e0 : CodeEntry) (now : Nat)
    (hInv : RegInv s) (hfound : lookupA s.codeToEntry c0 = some e0) :
    RegInv ⟨setA s.codeToEntry c0 ⟨e0.peerId, now⟩, s.peerToCode⟩ := by
  obtain ⟨hnc, hnp, hbij⟩ := hInv
  refine ⟨KeysNodup_setA _ _ _ hnc, hnp, ?_⟩
  intro pid c
  by_cases hc : c = c0
  · subst hc
    rw [lookupA_setA_self]
    constructor
    · intro h
      rcases (hbij pid c).mp h with ⟨e, he, hpe⟩
      rw [hfound] at he
      injection he with he2
      refine ⟨⟨e0.peerId, now⟩, rfl, ?_⟩
      rw [he2]
      exact hpe
    · rintro ⟨e, he, hpe⟩
      injection he with he2
      apply (hbij pid c).mpr
      refine ⟨e0, hfound, ?_⟩
      rw [← hpe, ← he2]
  · rw [lookupA_setA_ne _ _ _ _ hc]
    exact hbij pid c

theorem RegInv_register_fresh (s : RegState) (p : String) (now : Nat) (code : String)
    (hInv : RegInv s) (hp : lookupA s.peerToCode p = none)
    (hcode : lookupA s.codeToEntry code = none) :
    RegInv ⟨setA s.codeToEntry code ⟨p, now⟩, setA s.peerToCode p code⟩ := by
  obtain ⟨hnc, hnp, hbij⟩ := hInv
  refine ⟨KeysNodup_setA _ _ _ hnc, KeysNodup_setA _ _ _ hnp, ?_⟩
  intro pid c
  by_cases hpid : pid = p
  · subst hpid
    rw [lookupA_setA_self]
    by_cases hc : c = code
    · subst hc
      rw [lookupA_setA_self]
      constructor
      · intro _
        exact ⟨⟨pid, now⟩, rfl, rfl⟩
      · intro _
        rfl
    · rw [lookupA_setA_ne _ _ _ _ hc]
      constructor
      · intro h
        injection h with h2
        exact absurd h2.symm hc
      · rintro ⟨e, he, hpe⟩
        exfalso
        have h2 := (hbij pid c).mpr ⟨e, he, hpe⟩
        rw [hp] at h2
        exact Option.noConfusion h2
  · rw [lookupA_setA_ne _ _ _ _ hpid]
    by_cases hc : c = code
    · subst hc
      rw [lookupA_setA_self]
      constructor
      · intro h
        exfalso
        rcases (hbij pid c).mp h with ⟨e, he, hpe⟩
        rw [hcode] at he
        exact Option.noConfusion he
      · rintro ⟨e, he, hpe⟩
        exfalso
        injection he with he2
        apply hpid
        rw [← hpe, ← he2]
    · rw [lookupA_setA_ne _ _ _ _ hc]
      exact hbij pid c

theorem RegInv_cleanup (s : RegState) (now : Nat) (hInv : RegInv s) :
    RegInv (cleanupExpired s now) := by
  obtain ⟨hnc, hnp, hbij⟩ := hInv
  obtain ⟨hcEq, hpEq⟩ := foldl_cleanupStep now s.codeToEntry s
  have hcEq2 : (cleanupExpired s now).codeToEntry
      = s.codeToEntry.filter
          (fun kv => !((expiredCodes now s.codeToEntry).contains kv.1)) := hcEq
  have hpEq2 : (cleanupExpired s now).peerToCode
      = s.peerToCode.filter
          (fun kv => !((expiredPeers now s.codeToEntry).contains kv.1)) := hpEq
  refine ⟨?_, ?_, ?_⟩
  · unfold KeysNodup
    rw [hcEq2]
    exact ((List.filter_sublist _).map Prod.fst).nodup hnc
  · unfold KeysNodup
    rw [hpEq2]
    exact ((List.filter_sublist _).map Prod.fst).nodup hnp
  · intro pid c
    rw [hcEq2, hpEq2, lookupA_filter _ _ _ hnp]
    constructor
    · intro h
      rcases hlp : lookupA s.peerToCode pid with _ | c0
      · rw [hlp] at h
        exact absurd h (by simp)
      · rw [hlp] at h
        simp only at h
        rcases hq : ((expiredPeers now s.codeToEntry).contains pid) with _ | _
        · rw [hq] at h
          simp at h
          subst h
          rcases (hbij pid c0).mp hlp with ⟨e, he, hpe⟩
          have hkeep : c0 ∉ expiredCodes now s.codeToEntry := by
            intro hcmem
            rcases (mem_expiredCodes now s.codeToEntry c0).mp hcmem with ⟨e2, hmem2, hexp2⟩
            have hl0 : lookupA s.codeToEntry c0 = some e2 := mem_lookupA _ _ _ hnc hmem2
            rw [he] at hl0
            injection hl0 with he3
            have hpmem : pid ∈ expiredPeers now s.codeToEntry :=
              (mem_expiredPeers now s.codeToEntry pid).mpr
                ⟨c0, e, lookupA_mem _ _ _ he, hpe, by rw [he3]; exact hexp2⟩
            have hcontra : ((expiredPeers now s.codeToEntry).contains pid) = true := by
              simpa using hpmem
            rw [hq] at hcontra
            exact Bool.false_ne_true hcontra
          refine ⟨e, ?_, hpe⟩
          rw [lookupA_filter _ _ _ hnc, he]
          simp [hkeep]
        · rw [hq] at h
          simp at h
    · rintro ⟨e, he, hpe⟩
      rw [lookupA_filter _ _ _ hnc] at he
      rcases hlc : lookupA s.codeToEntry c with _ | e0
      · rw [hlc] at he
        exact absurd he (by simp)
      · rw [hlc] at he
        simp only at he
        rcases hq : ((expiredCodes now s.codeToEntry).contains c) with _ | _
        · rw [hq] at he
          simp at he
          subst he
          have hlp := (hbij pid c).mpr ⟨e0, hlc, hpe⟩
          rw [hlp]
          have hkeep : pid ∉ expiredPeers now s.codeToEntry := by
            intro hpmem
            rcases (mem_expiredPeers now s.codeToEntry pid).mp hpmem with
              ⟨c2, e2, hmem2, hpid2, hexp2⟩
            have hl2 : lookupA s.codeToEntry c2 = some e2 :=
              mem_lookupA _ _ _ hnc hmem2
            have hlp2 := (hbij pid c2).mpr ⟨e2, hl2, hpid2⟩
            rw [hlp] at hlp2
            injection hlp2 with hc2
            subst hc2
            rw [hlc] at hl2
            injection hl2 with he2
            have hcmem : c ∈ expiredCodes now s.codeToEntry :=
              (mem_expiredCodes now s.codeToEntry c).mpr
                ⟨e0, lookupA_mem _ _ _ hlc, by rw [he2]; exact hexp2⟩
            have hcontra : ((expiredCodes now s.codeToEntry).contains c) = true := by
              simpa using hcmem
            rw [hq] at hcontra
            exact Bool.false_ne_true hcontra
          simp [hkeep]
        · rw [hq] at he
          simp at he

/-! ## registerPeer characterization -/

theorem registerFresh_some (s : RegState) (p : String) (now : Nat)
    (picks : List (Nat → Nat)) (c : String) (s2 : RegState)
    (h : registerFresh s p now picks = some (c, s2)) :
    lookupA s.codeToEntry c = none
    ∧ s2 = ⟨setA s.codeToEntry c ⟨p, now⟩, setA s.peerToCode p c⟩
    ∧ ∃ pick, c = generateCode pick := by
  unfold registerFresh at h
  rcases hf : picks.find? (fun pick => !(hasA s.codeToEntry (generateCode pick)))
    with _ | pick
  · rw [hf] at h
    exact Option.noConfusion h
  · rw [hf] at h
    have hpred := List.find?_some hf
    have hnone : lookupA s.codeToEntry (generateCode pick) = none := by
      rcases hl : lookupA s.codeToEntry (generateCode pick) with _ | v
      · rfl
      · exfalso
        have hhas : hasA s.codeToEntry (generateCode pick) = true :=
          (hasA_iff_lookupA _ _).mpr ⟨v, hl⟩
        rw [hhas] at hpred
        simp at hpred
    simp only [Option.some.injEq, Prod.mk.injEq] at h
    obtain ⟨hc, hs2⟩ := h
    subst hc
    subst hs2
    exact ⟨hnone, rfl, pick, rfl⟩

theorem registerPeer_post (s : RegState) (p : String) (now : Nat)
    (picks : List (Nat → Nat)) (c : String) (s2 : RegState)
    (hInv : RegInv s) (h : registerPeer s p now picks = some (c, s2)) :
    lookupA s2.peerToCode p = some c
    ∧ lookupA s2.codeToEntry c = some ⟨p, now⟩
    ∧ RegInv s2 := by
  unfold registerPeer at h
  rcases hlp : lookupA s.peerToCode p with _ | code0
  · rw [hlp] at h
    obtain ⟨hnone, hs2, hpick⟩ := registerFresh_some s p now picks c s2 h
    subst hs2
    exact ⟨lookupA_setA_self _ _ _, lookupA_setA_self _ _ _,
      RegInv_register_fresh s p now c hInv hlp hnone⟩
  · rw [hlp] at h
    simp only at h
    rcases hlc : lookupA s.codeToEntry code0 with _ | entry
    · rw [hlc] at h
      exfalso
      rcases (hInv.2.2 p code0).mp hlp with ⟨e, he, _⟩
      rw [hlc] at he
      exact Option.noConfusion he
    · rw [hlc] at h
      simp only at h
      simp only [Option.some.injEq, Prod.mk.injEq] at h
      obtain ⟨hc, hs2⟩ := h
      subst hc
      subst hs2
      have hpe : entry.peerId = p := by
        rcases (hInv.2.2 p code0).mp hlp with ⟨e, he, hpe⟩
        rw [hlc] at he
        injection he with he2
        rw [he2]
        exact hpe
      refine ⟨hlp, ?_, ?_⟩
      · rw [lookupA_setA_self, hpe]
      · exact RegInv_update_entry s code0 entry now hInv hlc

/-! ## Code alphabet facts -/

theorem codeChar_mem (r : Nat) : codeChar r ∈ CODE_CHARS := by
  unfold codeChar
  have hlen : CODE_CHARS.length = 32 := by decide
  have hlt : r % CODE_CHARS.length < CODE_CHARS.length := by
    rw [hlen]
    exact Nat.mod_lt _ (by omega)
  rw [List.getD_eq_getElem?_getD, List.getElem?_eq_getElem hlt]
  exact List.getElem_mem hlt

theorem generateCode_chars (pick : Nat → Nat) :
    ∀ ch ∈ (generateCode pick).data, ch ∈ '-' :: CODE_CHARS := by
  have hgen : ∀ (l : List Nat) (acc : List Char),
      (∀ ch ∈ acc, ch ∈ '-' :: CODE_CHARS) →
      ∀ ch ∈ l.foldl (fun code i =>
          (if i = 4 then code ++ ['-'] else code) ++ [codeChar (pick i)]) acc,
        ch ∈ '-' :: CODE_CHARS := by
    intro l
    induction l with
    | nil => intro acc hacc ch hch; exact hacc ch hch
    | cons i rest ih =>
        intro acc hacc ch hch
        rw [List.foldl_cons] at hch
        refine ih _ ?_ ch hch
        intro ch2 hch2
        rcases List.mem_append.mp hch2 with h1 | h1
        · by_cases hi : i = 4
          · rw [if_pos hi] at h1
            rcases List.mem_append.mp h1 with h2 | h2
            · exact hacc ch2 h2
            · simp at h2
              subst h2
              exact List.mem_cons_self _ _
          · rw [if_neg hi] at h1
            exact hacc ch2 h1
        · simp at h1
          subst h1
          exact List.mem_cons_of_mem _ (codeChar_mem (pick i))
  intro ch hch
  exact hgen (List.range 8) [] (by simp) ch hch

theorem codeCharsUpper :
    (('-' :: CODE_CHARS).all fun ch => ch.toUpper == ch) = true := by decide

theorem codeCharsLowerUpper :
    (('-' :: CODE_CHARS).all fun ch => ch.toLower.toUpper == ch) = true := by decide

theorem jsToUpper_of_wf (s : String) (h : ∀ ch ∈ s.data, ch ∈ '-' :: CODE_CHARS) :
    jsToUpper s = s := by
  unfold jsToUpper
  have hmap : s.data.map Char.toUpper = s.data := by
    have h2 : s.data.map Char.toUpper = s.data.map id := by
      apply List.map_congr_left
      intro a ha
      have hall := List.all_eq_true.mp codeCharsUpper a (h a ha)
      simpa using hall
    rw [h2, List.map_id]
  rw [hmap]

theorem jsToUpper_jsToLower_of_wf (s : String)
    (h : ∀ ch ∈ s.data, ch ∈ '-' :: CODE_CHARS) :
    jsToUpper (jsToLower s) = s := by
  have hmap : (s.data.map Char.toLower).map Char.toUpper = s.data := by
    rw [List.map_map]
    have h2 : s.data.map (Char.toUpper ∘ Char.toLower) = s.data.map id := by
      apply List.map_congr_left
      intro a ha
      have hall := List.all_eq_true.mp codeCharsLowerUpper a (h a ha)
      simpa using hall
    rw [h2, List.map_id]
  show String.mk ((s.data.map Char.toLower).map Char.toUpper) = s
  rw [hmap]

theorem codesWellFormed_setA_existing (L : List (String × CodeEntry))
    (hwf : ∀ kv ∈ L, ∀ ch ∈ kv.1.data, ch ∈ '-' :: CODE_CHARS)
    (c0 : String) (v : CodeEntry) (e0 : CodeEntry)
    (hfound : lookupA L c0 = some e0) :
    ∀ kv ∈ setA L c0 v, ∀ ch ∈ kv.1.data, ch ∈ '-' :: CODE_CHARS := by
  intro kv hkv
  rcases mem_setA L c0 v kv hkv with heq | hmem
  · subst heq
    exact hwf (c0, e0) (lookupA_mem _ _ _ hfound)
  · exact hwf kv hmem

/-! ## The registry invariant holds in every reachable state -/

theorem reachable_inv (s : RegState) (h : RegReachable s) :
    RegInv s ∧ codesWellFormed s := by
  induction h with
  | init =>
      refine ⟨RegInv_init, ?_⟩
      intro kv hkv
      simp [regInit] at hkv
  | register s p now picks c s2 hr hreg ih =>
      obtain ⟨hInv, hwf⟩ := ih
      refine ⟨(registerPeer_post s p now picks c s2 hInv hreg).2.2, ?_⟩
      unfold registerPeer at hreg
      rcases hlp : lookupA s.peerToCode p with _ | code0
      · rw [hlp] at hreg
        obtain ⟨hnone, hs2, pick, hpick⟩ := registerFresh_some s p now picks c s2 hreg
        subst hs2
        intro kv hkv
        rcases mem_setA _ _ _ kv hkv with heq | hmem
        · subst heq
          intro ch hch
          exact generateCode_chars pick ch (by rw [← hpick]; exact hch)
        · exact hwf kv hmem
      · rw [hlp] at hreg
        simp only at hreg
        rcases hlc : lookupA s.codeToEntry code0 with _ | entry
        · rw [hlc] at hreg
          obtain ⟨hnone, hs2, pick, hpick⟩ :=
            registerFresh_some s p now picks c s2 hreg
          subst hs2
          intro kv hkv
          rcases mem_setA _ _ _ kv hkv with heq | hmem
          · subst heq
            intro ch hch
            exact generateCode_chars pick ch (by rw [← hpick]; exact hch)
          · exact hwf kv hmem
        · rw [hlc] at hreg
          simp only at hreg
          simp only [Option.some.injEq, Prod.mk.injEq] at hreg
          obtain ⟨hc, hs2⟩ := hreg
          subst hc
          subst hs2
          exact codesWellFormed_setA_existing s.codeToEntry hwf code0 _ entry hlc
  | lookup s code now hr ih =>
      obtain ⟨hInv, hwf⟩ := ih
      unfold lookupCode
      rcases hlc : lookupA s.codeToEntry (jsToUpper code) with _ | entry
      · exact ⟨hInv, hwf⟩
      · refine ⟨RegInv_update_entry s (jsToUpper code) entry now hInv hlc, ?_⟩
        exact codesWellFormed_setA_existing s.codeToEntry hwf (jsToUpper code) _
          entry hlc
  | cleanup s now hr ih =>
      obtain ⟨hInv, hwf⟩ := ih
      refine ⟨RegInv_cleanup s now hInv, ?_⟩
      intro kv hkv
      have hcEq : (cleanupExpired s now).codeToEntry
          = s.codeToEntry.filter
              (fun kv => !((expiredCodes now s.codeToEntry).contains kv.1)) :=
        (foldl_cleanupStep now s.codeToEntry s).1
      rw [hcEq] at hkv
      exact hwf kv (List.mem_of_mem_filter hkv)

/-- The consistency property claimed of the registry: the two maps form a
bijection — `peerToCode` maps `p` to `c` exactly when `codeToEntry` maps
`c` to an entry whose `peerId` is `p`, no code resolves to two peers, and
no peer holds two live codes. -/
def RegistryConsistent (s : RegState) : Prop :=
  (∀ p c, lookupA s.peerToCode p = some c ↔
      ∃ e, lookupA s.codeToEntry c = some e ∧ e.peerId = p)
  ∧ (∀ p1 p2 c, lookupA s.peerToCode p1 = some c →
      lookupA s.peerToCode p2 = some c → p1 = p2)
  ∧ (∀ p c1 c2, lookupA s.peerToCode p = some c1 →
      lookupA s.peerToCode p = some c2 → c1 = c2)

/-- C4: after every sequence of registry operations (`registerPeer`,
`lookupCode`, the expiry sweep) the two maps form a consistent bijection:
`peerToCode` maps `P` to `c` iff `codeToEntry` maps `c` to an entry whose
`peerId` is `P`; no code maps to two peers and no peer holds two live
codes. -/
theorem registry_reachable_bijection (s : RegState) (h : RegReachable s) :
    RegistryConsistent s := by
  obtain ⟨⟨hnc, hnp, hbij⟩, _⟩ := reachable_inv s h
  refine ⟨hbij, ?_, ?_⟩
  · intro p1 p2 c h1 h2
    rcases (hbij p1 c).mp h1 with ⟨e1, he1, hp1⟩
    rcases (hbij p2 c).mp h2 with ⟨e2, he2, hp2⟩
    rw [he1] at he2
    injection he2 with he3
    rw [← hp1, ← hp2, he3]
  · intro p c1 c2 h1 h2
    rw [h1] at h2
    injection h2

/-- Witness for C4: the registry reached by one `registerPeer` call on the
empty registry (random stream constantly 0, producing `AAAA-AAAA`)
satisfies the bijection. -/
theorem registry_reachable_bijection_witness :
    RegistryConsistent ⟨[("AAAA-AAAA", ⟨"PA", 5⟩)], [("PA", "AAAA-AAAA")]⟩ :=
  registry_reachable_bijection _
    (RegReachable.register regInit "PA" 5 [fun _ => 0] "AAAA-AAAA" _
      RegReachable.init rfl)

/-- C5: for every reachable registry state, a `registerPeer(P)` that
returned code `c` is idempotent — a second call with no intervening expiry
returns the same `c` — and `lookupCode` on `c`, including on its lowercase
form, returns an entry whose `peerId` is `P`. -/
theorem registerPeer_idempotent_lookup_roundtrip (s : RegState)
    (h : RegReachable s) (p : String) (now1 : Nat) (picks : List (Nat → Nat))
    (c : String) (s2 : RegState)
    (hreg : registerPeer s p now1 picks = some (c, s2)) :
    (∀ now2 picks2, registerPeer s2 p now2 picks2
        = some (c, { s2 with codeToEntry := setA s2.codeToEntry c ⟨p, now2⟩ }))
    ∧ (∀ now2, (lookupCode s2 c now2).1 = some ⟨p, now2⟩)
    ∧ (∀ now2, (lookupCode s2 (jsToLower c) now2).1 = some ⟨p, now2⟩) := by
  obtain ⟨hInv, hwf⟩ := reachable_inv s h
  obtain ⟨hlp2, hlc2, hInv2⟩ := registerPeer_post s p now1 picks c s2 hInv hreg
  have hr2 : RegReachable s2 := RegReachable.register s p now1 picks c s2 h hreg
  obtain ⟨_, hwf2⟩ := reachable_inv s2 hr2
  have hcwf : ∀ ch ∈ c.data, ch ∈ '-' :: CODE_CHARS :=
    hwf2 (c, ⟨p, now1⟩) (lookupA_mem _ _ _ hlc2)
  have hupper : jsToUpper c = c := jsToUpper_of_wf c hcwf
  have hlower : jsToUpper (jsToLower c) = c := jsToUpper_jsToLower_of_wf c hcwf
  refine ⟨?_, ?_, ?_⟩
  · intro now2 picks2
    unfold registerPeer
    rw [hlp2]
    simp only
    rw [hlc2]
  · intro now2
    unfold lookupCode
    rw [hupper, hlc2]
  · intro now2
    unfold lookupCode
    rw [hlower, hlc2]

/-- Witness for C5: registering `PB` on the empty registry (random stream
constantly 1, producing `BBBB-BBBB`) and re-registering or looking the
code up — also in lowercase — finds `PB`. -/
theorem registerPeer_idempotent_lookup_roundtrip_witness :
    (∀ now2 picks2, registerPeer
        ⟨[("BBBB-BBBB", ⟨"PB", 3⟩)], [("PB", "BBBB-BBBB")]⟩ "PB" now2 picks2
        = some ("BBBB-BBBB",
            { (⟨[("BBBB-BBBB", ⟨"PB", 3⟩)], [("PB", "BBBB-BBBB")]⟩ : RegState) with
              codeToEntry := setA [("BBBB-BBBB", ⟨"PB", 3⟩)] "BBBB-BBBB"
                ⟨"PB", now2⟩ }))
    ∧ (∀ now2, (lookupCode ⟨[("BBBB-BBBB", ⟨"PB", 3⟩)], [("PB", "BBBB-BBBB")]⟩
        "BBBB-BBBB" now2).1 = some ⟨"PB", now2⟩)
    ∧ (∀ now2, (lookupCode ⟨[("BBBB-BBBB", ⟨"PB", 3⟩)], [("PB", "BBBB-BBBB")]⟩
        (jsToLower "BBBB-BBBB") now2).1 = some ⟨"PB", now2⟩) :=
  registerPeer_idempotent_lookup_roundtrip regInit RegReachable.init "PB" 3
    [fun _ => 1] "BBBB-BBBB" _ rfl

/-! ## Peer outbound router (sidecar `sendToPeer` / `sendViaRelay`)

Network effects are modelled by boolean oracles: `directOk` is true when
the whole direct tier (open the protocol stream, send, close) succeeds,
`postOk` when the relay POST succeeds. `parsedPayload` is the value
`JSON.parse(payload)` produces, `none` when it throws. -/

/-- Protocol id `/concord/chat/1.0.0`. -/
def CHAT_PROTOCOL : String := "/concord/chat/1.0.0"

/-- Constant `DEFAULT_CHANNEL`, the string `general`. -/
def DEFAULT_CHANNEL : String := "general"

/-- The relay's HTTP base URL from the sidecar. -/
def RELAY_HTTP_URL : String := "https://concord-relay.fly.dev:8080"

/-- The JSON body `{ to, from, channelId, data }` POSTed to `/send`. -/
structure RelayPost where
  to_ : String
  from_ : String
  channelId : Js
  data : String

/-- An observable network action of the outbound router. -/
inductive SendAction where
  | directStream (protocol : String) (runOnLimitedConnection : Bool) (bytes : String)
  | directAttemptFailed (protocol : String)
  | post (url : String) (body : RelayPost)

/-- The outcome of one send: its network actions in order and the
increments applied to `stats.sent` / `stats.sendFail`. -/
structure SendOutcome where
  actions : List SendAction
  sentInc : Nat
  sendFailInc : Nat

/-- Function `sendViaRelay(fromPeerId, toPeerId, channelId, data)` from the sidecar:
POST `{to, from, channelId, data}` to the relay's `/send`; `sent++` on
success, `sendFail++` on failure. It never throws (errors are caught
inside). -/
def sendViaRelay (fromPeerId toPeerId : String) (channelId : Js) (data : String)
    (postOk : Bool) : SendOutcome :=
  if postOk then
    ⟨[.post (RELAY_HTTP_URL ++ "/send") ⟨toPeerId, fromPeerId, channelId, data⟩], 1, 0⟩
  else
    ⟨[.post (RELAY_HTTP_URL ++ "/send") ⟨toPeerId, fromPeerId, channelId, data⟩], 0, 1⟩

/-- The relay tier of `sendToPeer`: `try { const parsed =
JSON.parse(payload); await sendViaRelay(myPeerId, pidStr,
parsed.channelId || DEFAULT_CHANNEL, payload); } catch { stats.sendFail++ }`.
When `payload` is not valid JSON (or parses to `null`, making
`parsed.channelId` throw), the catch increments `sendFail` and nothing is
POSTed. -/
def relayFallback (myPeerId pidStr payload : String) (parsedPayload : Option Js)
    (postOk : Bool) : SendOutcome :=
  match parsedPayload with
  | none => ⟨[], 0, 1⟩
  | some parsed =>
      match parsed.get? "channelId" with
      | none => ⟨[], 0, 1⟩
      | some ch =>
          sendViaRelay myPeerId pidStr (jsOr ch (Js.str DEFAULT_CHANNEL)) payload postOk

/-- Function `sendToPeer(node, peerId, payload, myPeerId)` from the sidecar: when
`peerId` is among `node.getPeers()`, first try a direct
`/concord/chat/1.0.0` stream (`runOnLimitedConnection: true`), writing
`payload + "\n"` in one send and closing; `sent++` and return on success;
on failure fall through to the relay tier. When not directly connected,
only the relay tier runs. -/
def sendToPeer (connectedPeers : List String) (pidStr payload myPeerId : String)
    (parsedPayload : Option Js) (directOk postOk : Bool) : SendOutcome :=
  if connectedPeers.contains pidStr then
    if directOk then
      ⟨[.directStream CHAT_PROTOCOL true (payload ++ "\n")], 1, 0⟩
    else
      let r := relayFallback myPeerId pidStr payload parsedPayload postOk
      ⟨.directAttemptFailed CHAT_PROTOCOL :: r.actions, r.sentInc, r.sendFailInc⟩
  else relayFallback myPeerId pidStr payload parsedPayload postOk

/-- C1 counterexample: `sendTo` with a payload that is not valid JSON
(`"hello"`, so `JSON.parse` throws and `parsedPayload = none`) and a
recipient that is not directly connected performs no POST at all — the
claim says the relay tier always POSTs `{to, from, channelId, data}` —
and increments `sendFail` even though the relay is reachable
(`postOk = true`). -/
theorem sendToPeer_nonjson_payload_no_post :
    (sendToPeer [] "QmB" "hello" "QmA" none true true).actions = []
    ∧ (sendToPeer [] "QmB" "hello" "QmA" none true true).sentInc = 0
    ∧ (sendToPeer [] "QmB" "hello" "QmA" none true true).sendFailInc = 1 :=
  ⟨rfl, rfl, rfl⟩

/-- C1 (amended): direct tier first for directly connected peers —
`payload + "\n"` in one send over `/concord/chat/1.0.0` with the
limited-connection flag, `sent++` on success; any direct failure falls
through to the relay tier; peers not directly connected use only the
relay tier. The relay tier first parses `payload`: on success it POSTs
`{to, from, channelId: parsed.channelId || "general", data: payload}` to
`/send` and bumps `sent` or `sendFail` by outcome; when `payload` is not
valid JSON (or parses to `null`) it bumps `sendFail` without POSTing. -/
theorem sendToPeer_tiered_routing (conn : List String)
    (pid payload mid : String) (parsed : Option Js) (p : Js) (dOk pOk : Bool) :
    sendToPeer conn pid payload mid parsed dOk pOk
      = (if conn.contains pid then
          (if dOk then
            ⟨[.directStream CHAT_PROTOCOL true (payload ++ "\n")], 1, 0⟩
          else
            ⟨.directAttemptFailed CHAT_PROTOCOL ::
                (relayFallback mid pid payload parsed pOk).actions,
              (relayFallback mid pid payload parsed pOk).sentInc,
              (relayFallback mid pid payload parsed pOk).sendFailInc⟩)
         else relayFallback mid pid payload parsed pOk)
    ∧ relayFallback mid pid payload (some p) pOk
        = (match p.get? "channelId" with
           | some c =>
              ⟨[.post (RELAY_HTTP_URL ++ "/send")
                  ⟨pid, mid, jsOr c (Js.str DEFAULT_CHANNEL), payload⟩],
                if pOk then 1 else 0, if pOk then 0 else 1⟩
           | none => ⟨[], 0, 1⟩)
    ∧ relayFallback mid pid payload none pOk = ⟨[], 0, 1⟩ := by
  refine ⟨rfl, ?_, rfl⟩
  rcases hg : p.get? "channelId" with _ | c
  · simp [relayFallback, hg]
  · cases pOk <;> simp [relayFallback, sendViaRelay, hg]

/-! ## Peer relay client: `fetchJson` and invite-code registration -/

/-- What the network returns for one HTTP request: a failure (connection
error or timeout), or a reply with a status code and a body; the body is
given as `JSON.parse` sees it (`none` when parsing it throws). -/
inductive HttpResult where
  | netError
  | reply (status : Nat) (body : Option Js)

/-- Function `fetchJson(url)` from the sidecar: resolves with the parsed body —
the HTTP status code is never inspected — and rejects only on a network
error/timeout or a body that is not valid JSON. -/
def fetchJson (r : HttpResult) : Except String Js :=
  match r with
  | .netError => .error "request error"
  | .reply _ none => .error "invalid JSON"
  | .reply _ (some v) => .ok v

/-- One `registerInviteCode()` attempt: the stored invite code, the events
emitted and the scheduled retry delay (ms), if any. -/
structure InviteRegOutcome where
  inviteCode : Option Js
  events : List (String × Js)
  retryDelayMs : Option Nat

/-- Function `registerInviteCode()` from the sidecar: no-op without a relay peer
id; otherwise fetch `/register?peerId=self`; on a resolved fetch store
`reg.code`, emit `invite_code`; on a rejected fetch (or a `reg.code`
access that throws, when the body parsed to `null`) schedule a retry in
10 s. -/
def registerInviteCodeStep (relayPeerId : Option String) (resp : HttpResult) :
    InviteRegOutcome :=
  match relayPeerId with
  | none => ⟨none, [], none⟩
  | some _ =>
      match fetchJson resp with
      | .ok reg =>
          match reg.get? "code" with
          | some code => ⟨some code, [("invite_code", code)], none⟩
          | none => ⟨none, [], some 10000⟩
      | .error _ => ⟨none, [], some 10000⟩

/-- C6 (code bug): `fetchJson` ignores the HTTP status, so a 500 reply
from `/register` whose body is JSON (as the relay's own error responses
are) is treated as success: the peer emits `invite_code` with
`code = undefined` and schedules no retry — the spec requires no
`invite_code` event and a retry every 10 s. Only a 500 whose body is not
JSON behaves as specified. -/
theorem registerInviteCode_500_behaviour :
    registerInviteCodeStep (some "RelayPeer")
        (.reply 500 (some (Js.obj [("error", Js.str "relay exploded")])))
      = ⟨some Js.undefined, [("invite_code", Js.undefined)], none⟩
    ∧ registerInviteCodeStep (some "RelayPeer") (.reply 500 none)
      = ⟨none, [], some 10000⟩ :=
  ⟨rfl, rfl⟩

/-! ## Peer relay client: the `/poll` message unwrapping -/

/-- A message as returned by the relay's `/poll` (outer fields). -/
structure PolledMsg where
  from_ : String
  channelId : String
  data : String

/-- A `message` event as emitted to the UI. -/
structure EmittedMsg where
  channelId : Js
  data : Js
  from_ : String

/-- The per-message unwrapping in `pollRelayMessages()`: `try { const
parsed = JSON.parse(msg.data); emit({channelId: parsed.channelId ||
msg.channelId || DEFAULT_CHANNEL, data: parsed.data, from: msg.from}) }
catch { emit({channelId: msg.channelId || DEFAULT_CHANNEL, data:
msg.data, from: msg.from}) }`. `parsed` is the `JSON.parse(msg.data)`
value (`none` when it throws); property access on a parsed `null` throws
inside the try, landing in the catch. -/
def unwrapPolled (parsed : Option Js) (m : PolledMsg) : EmittedMsg :=
  match parsed with
  | some p =>
      match p.get? "channelId", p.get? "data" with
      | some c, some d =>
          ⟨jsOr c (jsOr (Js.str m.channelId) (Js.str DEFAULT_CHANNEL)), d, m.from_⟩
      | _, _ =>
          ⟨jsOr (Js.str m.channelId) (Js.str DEFAULT_CHANNEL), Js.str m.data, m.from_⟩
  | none => ⟨jsOr (Js.str m.channelId) (Js.str DEFAULT_CHANNEL), Js.str m.data, m.from_⟩

/-- C7 counterexample: `msg.data = "42"` parses as JSON (to the number
42) yet has no `channelId`/`data` fields. The claim says the outer fields
are then used unchanged, but the code emits `data = parsed.data`, i.e.
`undefined`, not the outer `"42"`. -/
theorem unwrapPolled_nonobject_drops_data :
    (unwrapPolled (some (Js.num 42)) ⟨"QmA", "general", "42"⟩).data = Js.undefined
    ∧ Js.undefined ≠ Js.str "42" :=
  ⟨rfl, fun h => Js.noConfusion h⟩

/-- C7 (amended): the outer fields are used exactly when `msg.data` fails
to parse as JSON or parses to `null`; whenever it parses to anything
else, `data` is taken from `parsed.data` (`undefined` when absent) and
`channelId` is `parsed.channelId` when truthy, else the outer `channelId`
when truthy, else `"general"`; `from` is always the outer sender. -/
theorem unwrapPolled_characterization (p : Js) (m : PolledMsg) :
    unwrapPolled none m
      = ⟨jsOr (Js.str m.channelId) (Js.str DEFAULT_CHANNEL), Js.str m.data, m.from_⟩
    ∧ unwrapPolled (some Js.null) m
      = ⟨jsOr (Js.str m.channelId) (Js.str DEFAULT_CHANNEL), Js.str m.data, m.from_⟩
    ∧ (unwrapPolled (some p) m).from_ = m.from_
    ∧ (unwrapPolled (some p) m).data
        = (match p.get? "data" with
           | some d => d
           | none => Js.str m.data)
    ∧ (unwrapPolled (some p) m).channelId
        = (match p.get? "channelId" with
           | some c => jsOr c (jsOr (Js.str m.channelId) (Js.str DEFAULT_CHANNEL))
           | none => jsOr (Js.str m.channelId) (Js.str DEFAULT_CHANNEL)) := by
  refine ⟨rfl, rfl, ?_, ?_, ?_⟩ <;> cases p <;> rfl

/-! ## Peer bootstrap: identity and port -/

/-- The persisted identity file's contents (`none` when absent). -/
structure FsState where
  identityFile : Option String

/-- The identity-file accesses `loadOrCreateIdentity` performs. -/
inductive FsOp where
  | readIdentity
  | writeIdentity (contents : String)

/-- What `loadOrCreateIdentity` returns: `{ privateKey, isNew, isEphemeral }`. -/
structure IdentityResult (κ : Type) where
  privateKey : κ
  isNew : Bool
  isEphemeral : Bool

/-- Function `loadOrCreateIdentity(portConflict)` from the sidecar. On a port
conflict it returns a freshly generated key with `isEphemeral = true`
immediately, touching no file. Otherwise it reads the persisted file when
present; `decode` models the `JSON.parse` + `data.privateKey` +
`privateKeyFromProtobuf` chain (`none` when any step fails or is falsy);
on decode failure or a missing file a fresh key is generated and saved
(`encode` gives the serialized file contents; `writeOk` is the
mkdir/write success, failure being logged but not fatal). -/
def loadOrCreateIdentity {κ : Type} (portConflict : Bool) (fs : FsState)
    (decode : String → Option κ) (freshKey : κ) (encode : κ → String)
    (writeOk : Bool) : IdentityResult κ × FsState × List FsOp :=
  if portConflict then
    (⟨freshKey, false, true⟩, fs, [])
  else
    match fs.identityFile with
    | some contents =>
        match decode contents with
        | some key => (⟨key, false, false⟩, fs, [.readIdentity])
        | none =>
            if writeOk then
              (⟨freshKey, true, false⟩, ⟨some (encode freshKey)⟩,
               [.readIdentity, .writeIdentity (encode freshKey)])
            else (⟨freshKey, true, false⟩, fs, [.readIdentity])
    | none =>
        if writeOk then
          (⟨freshKey, true, false⟩, ⟨some (encode freshKey)⟩,
           [.writeIdentity (encode freshKey)])
        else (⟨freshKey, true, false⟩, fs, [])

/-- Function `loadOrCreatePort()` from the sidecar. `configPort` is the port read
from `relay-config.json` (`none` when the file is missing, unreadable, or
the field is not a number); `portAvail` is the `isPortAvailable` probe.
Result: `((port, conflict), persisted config port afterwards)`. A valid
free port is reused; a valid port in use yields a fresh port with
`conflict = true` (config untouched); otherwise a fresh port is picked
and persisted. -/
def loadOrCreatePort (configPort : Option Nat) (portAvail : Bool)
    (freshPort : Nat) : (Nat × Bool) × Option Nat :=
  match configPort with
  | some p =>
      if 0 < p then
        if portAvail then ((p, false), some p)
        else ((freshPort, true), some p)
      else ((freshPort, false), some freshPort)
  | none => ((freshPort, false), some freshPort)

/-- The fields of the `ready` event relevant here. -/
structure ReadyEvent where
  peerId : String
  port : Nat
  isEphemeral : Bool

/-- The bootstrap sequence of the sidecar's main block: resolve the port
(recording a conflict), load the identity with the conflict flag, and
emit `ready` with `isEphemeral` from the identity result. The steps in
between (relay-info fetch, overlay creation, chat handler registration)
neither touch the identity file nor change `isEphemeral`. -/
def bootstrapReady {κ : Type} (peerId : String) (configPort : Option Nat)
    (portAvail : Bool) (freshPort : Nat) (fs : FsState)
    (decode : String → Option κ) (freshKey : κ) (encode : κ → String)
    (writeOk : Bool) : ReadyEvent × FsState × List FsOp :=
  let pr := loadOrCreatePort configPort portAvail freshPort
  let idr := loadOrCreateIdentity pr.1.2 fs decode freshKey encode writeOk
  (⟨peerId, pr.1.1, idr.1.isEphemeral⟩, idr.2.1, idr.2.2)

/-- C8: on a port conflict (persisted port `p` found in use),
`loadOrCreateIdentity(true)` immediately returns the freshly generated
key with `isEphemeral = true`, performing no identity-file read or write;
through bootstrap the `ready` event reports `isEphemeral = true` and the
identity file is identical before and after. -/
theorem loadOrCreateIdentity_port_conflict_ephemeral {κ : Type} (fs : FsState)
    (decode : String → Option κ) (freshKey : κ) (encode : κ → String)
    (writeOk : Bool) (peerId : String) (p freshPort : Nat) (hp : 0 < p) :
    loadOrCreateIdentity true fs decode freshKey encode writeOk
      = (⟨freshKey, false, true⟩, fs, [])
    ∧ (loadOrCreatePort (some p) false freshPort).1 = (freshPort, true)
    ∧ (bootstrapReady peerId (some p) false freshPort fs decode freshKey encode
        writeOk).1.isEphemeral = true
    ∧ (bootstrapReady peerId (some p) false freshPort fs decode freshKey encode
        writeOk).2.1 = fs
    ∧ (bootstrapReady peerId (some p) false freshPort fs decode freshKey encode
        writeOk).2.2 = [] := by
  refine ⟨rfl, ?_, ?_, ?_, ?_⟩ <;>
    simp [loadOrCreatePort, bootstrapReady, loadOrCreateIdentity, hp]

/-- Witness for C8 at a concrete conflicting configuration. -/
theorem loadOrCreateIdentity_port_conflict_ephemeral_witness :
    loadOrCreateIdentity true ⟨some "OLD"⟩ (fun _ => none) "K" (fun _ => "X") true
      = (⟨"K", false, true⟩, ⟨some "OLD"⟩, [])
    ∧ (loadOrCreatePort (some 4001) false 4002).1 = (4002, true)
    ∧ (bootstrapReady "QmSelf" (some 4001) false 4002 ⟨some "OLD"⟩
        (fun _ => none) "K" (fun _ => "X") true).1.isEphemeral = true
    ∧ (bootstrapReady "QmSelf" (some 4001) false 4002 ⟨some "OLD"⟩
        (fun _ => none) "K" (fun _ => "X") true).2.1 = ⟨some "OLD"⟩
    ∧ (bootstrapReady "QmSelf" (some 4001) false 4002 ⟨some "OLD"⟩
        (fun _ => none) "K" (fun _ => "X") true).2.2 = [] :=
  loadOrCreateIdentity_port_conflict_ephemeral ⟨some "OLD"⟩ (fun _ => none) "K"
    (fun _ => "X") true "QmSelf" 4001 4002 (by decide)

/-! ## Known-peers persistence (client-side `knownPeers.ts`) -/

/-- A persisted entry `{ address, lastSeen }`. -/
structure PeerEntry where
  address : String
  lastSeen : Nat
deriving DecidableEq

/-- Constant `MAX_PEERS = 50`. -/
def MAX_PEERS : Nat := 50

/-- The `findIndex`/update-or-push step of `addKnownPeer`: refresh the
first entry whose address equals the trimmed input, or append a new
entry. -/
def updateFirstOrAppend (peers : List PeerEntry) (trimmed : String) (now : Nat) :
    List PeerEntry :=
  match peers with
  | [] => [⟨trimmed, now⟩]
  | q :: rest =>
      if q.address = trimmed then ⟨q.address, now⟩ :: rest
      else q :: updateFirstOrAppend rest trimmed now

/-- One step of a stable insertion into a lastSeen-descending list. -/
def insertDesc (e : PeerEntry) : List PeerEntry → List PeerEntry
  | [] => [e]
  | x :: xs => if e.lastSeen ≤ x.lastSeen then x :: insertDesc e xs else e :: x :: xs

/-- Model of `peers.sort((a, b) => b.lastSeen - a.lastSeen)`: any sort
agreeing with the comparator is a faithful model of
`Array.prototype.sort`; insertion sort is used so the definition computes
in the kernel. -/
def sortByLastSeenDesc : List PeerEntry → List PeerEntry
  | [] => []
  | x :: xs => insertDesc x (sortByLastSeenDesc xs)

/-- Function `addKnownPeer(address)` from `knownPeers.ts`: trim the address; do
nothing when the trimmed form is empty; update the first matching entry's
`lastSeen` to now or append a new entry; sort by `lastSeen` descending;
keep the first `MAX_PEERS = 50`; the returned list is what is persisted
to localStorage. -/
def addKnownPeer (peers : List PeerEntry) (address : String) (now : Nat) :
    List PeerEntry :=
  let trimmed := jsTrim address
  if trimmed = "" then peers
  else (sortByLastSeenDesc (updateFirstOrAppend peers trimmed now)).take MAX_PEERS

theorem insertDesc_perm (e : PeerEntry) (l : List PeerEntry) :
    (insertDesc e l).Perm (e :: l) := by
  induction l with
  | nil => exact List.Perm.refl _
  | cons x xs ih =>
      by_cases h : e.lastSeen ≤ x.lastSeen
      · simp only [insertDesc, if_pos h]
        exact (ih.cons x).trans (List.Perm.swap e x xs)
      · simp only [insertDesc, if_neg h]
        exact List.Perm.refl _

theorem sortByLastSeenDesc_perm (l : List PeerEntry) :
    (sortByLastSeenDesc l).Perm l := by
  induction l with
  | nil => exact List.Perm.refl _
  | cons x xs ih =>
      exact (insertDesc_perm x (sortByLastSeenDesc xs)).trans (ih.cons x)

theorem insertDesc_sorted (e : PeerEntry) (l : List PeerEntry)
    (h : l.Pairwise (fun a b => b.lastSeen ≤ a.lastSeen)) :
    (insertDesc e l).Pairwise (fun a b => b.lastSeen ≤ a.lastSeen) := by
  induction l with
  | nil => simp [insertDesc]
  | cons x xs ih =>
      rcases List.pairwise_cons.mp h with ⟨hx, hxs⟩
      by_cases hle : e.lastSeen ≤ x.lastSeen
      · simp only [insertDesc, if_pos hle]
        apply List.pairwise_cons.mpr
        refine ⟨?_, ih hxs⟩
        intro b hb
        rcases List.mem_cons.mp ((insertDesc_perm e xs).mem_iff.mp hb) with rfl | hbxs
        · exact hle
        · exact hx b hbxs
      · simp only [insertDesc, if_neg hle]
        apply List.pairwise_cons.mpr
        refine ⟨?_, h⟩
        intro b hb
        rcases List.mem_cons.mp hb with rfl | hbxs
        · omega
        · have := hx b hbxs
          omega

theorem sortByLastSeenDesc_sorted (l : List PeerEntry) :
    (sortByLastSeenDesc l).Pairwise (fun a b => b.lastSeen ≤ a.lastSeen) := by
  induction l with
  | nil => simp [sortByLastSeenDesc]
  | cons x xs ih => exact insertDesc_sorted x _ ih

theorem mem_updateFirstOrAppend_self (peers : List PeerEntry) (t : String)
    (now : Nat) : (⟨t, now⟩ : PeerEntry) ∈ updateFirstOrAppend peers t now := by
  induction peers with
  | nil => simp [updateFirstOrAppend]
  | cons q rest ih =>
      by_cases h : q.address = t
      · simp only [updateFirstOrAppend, if_pos h, h]
        exact List.mem_cons_self _ _
      · simp only [updateFirstOrAppend, if_neg h]
        exact List.mem_cons_of_mem _ ih

theorem mem_updateFirstOrAppend (peers : List PeerEntry) (t : String) (now : Nat)
    (b : PeerEntry) (hb : b ∈ updateFirstOrAppend peers t now) :
    b = ⟨t, now⟩ ∨ b ∈ peers := by
  induction peers with
  | nil =>
      simp [updateFirstOrAppend] at hb
      exact Or.inl hb
  | cons q rest ih =>
      by_cases h : q.address = t
      · simp only [updateFirstOrAppend, if_pos h] at hb
        rcases List.mem_cons.mp hb with heq | hmem
        · exact Or.inl (by rw [heq, h])
        · exact Or.inr (List.mem_cons_of_mem _ hmem)
      · simp only [updateFirstOrAppend, if_neg h] at hb
        rcases List.mem_cons.mp hb with heq | hmem
        · exact Or.inr (heq ▸ List.mem_cons_self _ _)
        · rcases ih hmem with h2 | h2
          · exact Or.inl h2
          · exact Or.inr (List.mem_cons_of_mem _ h2)

theorem head_of_sorted_strict (L : List PeerEntry) (e : PeerEntry)
    (hs : L.Pairwise (fun a b => b.lastSeen ≤ a.lastSeen))
    (hmem : e ∈ L) (hmax : ∀ b ∈ L, b ≠ e → b.lastSeen < e.lastSeen) :
    L.head? = some e := by
  rcases L with _ | ⟨h, t⟩
  · simp at hmem
  · simp only [List.head?_cons]
    by_cases heq : h = e
    · rw [heq]
    · exfalso
      have hlt : h.lastSeen < e.lastSeen := hmax h (List.mem_cons_self _ _) heq
      rcases List.mem_cons.mp hmem with rfl | het
      · exact heq rfl
      · have := (List.pairwise_cons.mp hs).1 e het
        omega

/-- C9 counterexample: `addKnownPeer` does not strip a trailing `/` — the
stored address keeps it; the claim's normalization would have stored the
slash-free form. -/
theorem addKnownPeer_keeps_trailing_slash :
    addKnownPeer [] "/ip4/1.2.3.4/tcp/1/ws/" 7
      = [⟨"/ip4/1.2.3.4/tcp/1/ws/", 7⟩]
    ∧ "/ip4/1.2.3.4/tcp/1/ws/" ≠ "/ip4/1.2.3.4/tcp/1/ws" := by
  exact ⟨rfl, by decide⟩

/-- C9 (amended): `addKnownPeer` normalizes by trimming only (no
trailing-`/` strip; an address that is empty after trimming is ignored);
it updates the first matching entry's `lastSeen` to now or appends a new
entry, sorts by `lastSeen` descending, truncates to 50 and persists: the
result is capped at 50, sorted descending, and (when every existing entry
is strictly older) headed by the entry `{address: trimmed, lastSeen:
now}`. -/
theorem addKnownPeer_trim_update_sort_cap (peers : List PeerEntry)
    (address : String) (now : Nat) (ht : jsTrim address ≠ "")
    (hseen : ∀ q ∈ peers, q.lastSeen < now) :
    addKnownPeer peers address now
      = (sortByLastSeenDesc
          (updateFirstOrAppend peers (jsTrim address) now)).take MAX_PEERS
    ∧ (addKnownPeer peers address now).length ≤ MAX_PEERS
    ∧ (addKnownPeer peers address now).Pairwise
        (fun a b => b.lastSeen ≤ a.lastSeen)
    ∧ (addKnownPeer peers address now).head? = some ⟨jsTrim address, now⟩ := by
  have heq : addKnownPeer peers address now
      = (sortByLastSeenDesc
          (updateFirstOrAppend peers (jsTrim address) now)).take MAX_PEERS := by
    unfold addKnownPeer
    rw [if_neg ht]
  refine ⟨heq, ?_, ?_, ?_⟩
  · rw [heq]
    simp [List.length_take]
  · rw [heq]
    exact (sortByLastSeenDesc_sorted _).sublist (List.take_sublist _ _)
  · rw [heq]
    have hhead : (sortByLastSeenDesc
        (updateFirstOrAppend peers (jsTrim address) now)).head?
        = some ⟨jsTrim address, now⟩ := by
      apply head_of_sorted_strict _ _ (sortByLastSeenDesc_sorted _)
      · exact (sortByLastSeenDesc_perm _).mem_iff.mpr
          (mem_updateFirstOrAppend_self peers (jsTrim address) now)
      · intro b hb hne
        rcases mem_updateFirstOrAppend peers (jsTrim address) now b
            ((sortByLastSeenDesc_perm _).mem_iff.mp hb) with h2 | h2
        · exact absurd h2 hne
        · exact hseen b h2
    rcases hL : sortByLastSeenDesc
        (updateFirstOrAppend peers (jsTrim address) now) with _ | ⟨x, xs⟩
    · rw [hL] at hhead
      simp at hhead
    · rw [hL] at hhead
      simpa [MAX_PEERS] using hhead

/-- Witness for C9 at a concrete call. -/
theorem addKnownPeer_trim_update_sort_cap_witness :
    addKnownPeer [⟨"/old", 1⟩] " /new " 9
      = (sortByLastSeenDesc
          (updateFirstOrAppend [⟨"/old", 1⟩] (jsTrim " /new ") 9)).take MAX_PEERS
    ∧ (addKnownPeer [⟨"/old", 1⟩] " /new " 9).length ≤ MAX_PEERS
    ∧ (addKnownPeer [⟨"/old", 1⟩] " /new " 9).Pairwise
        (fun a b => b.lastSeen ≤ a.lastSeen)
    ∧ (addKnownPeer [⟨"/old", 1⟩] " /new " 9).head? = some ⟨jsTrim " /new ", 9⟩ :=
  addKnownPeer_trim_update_sort_cap [⟨"/old", 1⟩] " /new " 9 (by decide)
    (by decide)

/-! ## Relay `/send` route handler -/

/-- The `POST /send` handler from the relay: parse the body (`parsed` is
the `JSON.parse` result, `none` when it throws, answered 400 "Invalid
JSON"); answer 400 when `to`, `from` or `channelId` is falsy or `data` is
strictly `undefined`; otherwise enqueue and answer 200. Property access
on a body parsed to `null` throws and is caught as invalid JSON. When
`to` or `from` is a truthy non-string, the success log line's `.slice`
throws after the message was already enqueued and the catch answers 400 —
hence the `isStr` guard after the enqueue. -/
def handleSend (parsed : Option Js) (qs : List (Js × List (QMsg Js))) (now : Nat) :
    Nat × List (Js × List (QMsg Js)) :=
  match parsed with
  | none => (400, qs)
  | some msg =>
      match msg.get? "to", msg.get? "from", msg.get? "channelId", msg.get? "data" with
      | some vto, some vfrom, some vch, some vdata =>
          if !vto.truthy || !vfrom.truthy || !vch.truthy || vdata.isUndefined then
            (400, qs)
          else
            let qs2 := enqueueMessage qs vto vfrom vch vdata now
            if vfrom.isStr && vto.isStr then (200, qs2) else (400, qs2)
      | _, _, _, _ => (400, qs)

/-- C10: `/send` answers 400 without enqueueing when the body is invalid
JSON, when `to` is absent or the empty string (likewise `from`,
`channelId` — all three are truthiness-tested), or when `data` is absent
(strictly `undefined`); but `data = ""` is accepted: the reply is 200 and
the message is enqueued with `data = ""`. -/
theorem handleSend_field_validation (toS fromS chS dataS : String)
    (qs : List (Js × List (QMsg Js))) (now : Nat)
    (hto : toS ≠ "") (hfrom : fromS ≠ "") (hch : chS ≠ "") :
    handleSend none qs now = (400, qs)
    ∧ handleSend (some (Js.obj [("from", Js.str fromS), ("channelId", Js.str chS),
        ("data", Js.str dataS)])) qs now = (400, qs)
    ∧ handleSend (some (Js.obj [("to", Js.str ""), ("from", Js.str fromS),
        ("channelId", Js.str chS), ("data", Js.str dataS)])) qs now = (400, qs)
    ∧ handleSend (some (Js.obj [("to", Js.str toS), ("channelId", Js.str chS),
        ("data", Js.str dataS)])) qs now = (400, qs)
    ∧ handleSend (some (Js.obj [("to", Js.str toS), ("from", Js.str ""),
        ("channelId", Js.str chS), ("data", Js.str dataS)])) qs now = (400, qs)
    ∧ handleSend (some (Js.obj [("to", Js.str toS), ("from", Js.str fromS),
        ("data", Js.str dataS)])) qs now = (400, qs)
    ∧ handleSend (some (Js.obj [("to", Js.str toS), ("from", Js.str fromS),
        ("channelId", Js.str ""), ("data", Js.str dataS)])) qs now = (400, qs)
    ∧ handleSend (some (Js.obj [("to", Js.str toS), ("from", Js.str fromS),
        ("channelId", Js.str chS)])) qs now = (400, qs)
    ∧ handleSend (some (Js.obj [("to", Js.str toS), ("from", Js.str fromS),
        ("channelId", Js.str chS), ("data", Js.str "")])) qs now
      = (200, enqueueMessage qs (Js.str toS) (Js.str fromS) (Js.str chS)
          (Js.str "") now) := by
  refine ⟨rfl, rfl, rfl, ?_, ?_, ?_, ?_, ?_, ?_⟩
  · simp [handleSend, Js.get?, Js.truthy, Js.isUndefined]
  · simp [handleSend, Js.get?, Js.truthy, Js.isUndefined]
  · simp [handleSend, Js.get?, Js.truthy, Js.isUndefined]
  · simp [handleSend, Js.get?, Js.truthy, Js.isUndefined]
  · simp [handleSend, Js.get?, Js.truthy, Js.isUndefined]
  · simp [handleSend, Js.get?, Js.truthy, Js.isUndefined, Js.isStr, hto, hfrom, hch]

/-- Witness for C10 at concrete field values. -/
theorem handleSend_field_validation_witness :
    handleSend none [] 5 = (400, [])
    ∧ handleSend (some (Js.obj [("from", Js.str "QmA"), ("channelId", Js.str "general"),
        ("data", Js.str "x")])) [] 5 = (400, [])
    ∧ handleSend (some (Js.obj [("to", Js.str ""), ("from", Js.str "QmA"),
        ("channelId", Js.str "general"), ("data", Js.str "x")])) [] 5 = (400, [])
    ∧ handleSend (some (Js.obj [("to", Js.str "QmB"), ("channelId", Js.str "general"),
        ("data", Js.str "x")])) [] 5 = (400, [])
    ∧ handleSend (some (Js.obj [("to", Js.str "QmB"), ("from", Js.str ""),
        ("channelId", Js.str "general"), ("data", Js.str "x")])) [] 5 = (400, [])
    ∧ handleSend (some (Js.obj [("to", Js.str "QmB"), ("from", Js.str "QmA"),
        ("data", Js.str "x")])) [] 5 = (400, [])
    ∧ handleSend (some (Js.obj [("to", Js.str "QmB"), ("from", Js.str "QmA"),
        ("channelId", Js.str ""), ("data", Js.str "x")])) [] 5 = (400, [])
    ∧ handleSend (some (Js.obj [("to", Js.str "QmB"), ("from", Js.str "QmA"),
        ("channelId", Js.str "general")])) [] 5 = (400, [])
    ∧ handleSend (some (Js.obj [("to", Js.str "QmB"), ("from", Js.str "QmA"),
        ("channelId", Js.str "general"), ("data", Js.str "")])) [] 5
      = (200, enqueueMessage [] (Js.str "QmB") (Js.str "QmA") (Js.str "general")
          (Js.str "") 5) :=
  handleSend_field_validation "QmB" "QmA" "general" "x" [] 5 (by decide)
    (by decide) (by decide)

end Concord
